import Mathlib

/-!
Verification development for the `Cached` guesser of the roget word-game
solver (`src/algorithms/cache.rs`).

The Rust code is shallowly embedded:
* `f64` weights, probabilities and scores become `ℚ`; the transcendental
  primitives `f64::log2` and `f64::ln` (which live in the Rust standard
  library, outside this repository) are abstract function parameters
  `rlog2` and `rln`.
* The feedback primitive `Correctness::compute` lives outside the
  repository and is an abstract function parameter `compute`; its packed
  form `Correctness::pack` and the bound `MAX_MASK_ENUM` are modelled from
  the spec (three per-letter classes over five positions, packed base 3).
* The thread-local `N × N` table of `Cell<Option<CacheValue>>` becomes a
  function `Nat → Nat → Option Nat` holding the `NonZeroU8`-encoded values,
  threaded explicitly through every operation that may write it.
* Every Rust panic site (`unwrap`, out-of-bounds indexing) becomes a `none`
  result, so `Cached.guess` returns `Option`.
-/

namespace Roget

/-- Modelled from the spec: the per-letter correctness classification of the
external feedback primitive (exact match / present-elsewhere / absent). -/
inductive Correctness
  | Correct
  | Misplaced
  | Wrong
deriving DecidableEq

/-- Modelled from the spec: a feedback pattern is the per-letter
classification across all five letter positions. -/
structure Mask where
  p1 : Correctness
  p2 : Correctness
  p3 : Correctness
  p4 : Correctness
  p5 : Correctness
deriving DecidableEq

/-- Numeric value of one letter classification, used by the base-3 packing. -/
def Correctness.toNat : Correctness → Nat
  | .Correct => 0
  | .Misplaced => 1
  | .Wrong => 2

/-- Modelled from the spec: `Correctness::pack`, encoding a five-letter
pattern as a small integer in `[0, MAX_MASK_ENUM)` (base-3 digits). -/
def Correctness.pack (m : Mask) : Nat :=
  (((m.p1.toNat * 3 + m.p2.toNat) * 3 + m.p3.toNat) * 3 + m.p4.toNat) * 3 + m.p5.toNat

/-- Modelled from the spec: `MAX_MASK_ENUM`, the number of distinct packed
patterns, `3 ^ 5 = 243`. -/
def MAX_MASK_ENUM : Nat := 243

/-- The history-entry type `Guess { word, mask }` consumed by the guesser. -/
structure Guess where
  word : String
  mask : Mask
deriving DecidableEq

/-- One element of the `remaining` vector: the Rust tuple
`(&'static str, f64, usize)` of word, sigmoid weight and dictionary index. -/
structure Entry where
  word : String
  weight : ℚ
  index : Nat
deriving DecidableEq

/-- The pairwise feedback cache `Cache([[Cell<Option<CacheValue>>; N]; N])`,
as a map from (guess index, answer index) to the stored encoded byte. -/
abbrev Cache : Type := Nat → Nat → Option Nat

/-- `impl Default for Cache`: every cell starts uncomputed. -/
def Cache.mkDefault : Cache := fun _ _ => none

/-- `CacheValue::new`: stores `val.wrapping_add(1)` as a `NonZeroU8`;
`NonZeroU8::new(..).unwrap()` panics (here: `none`) when the wrapped
successor is zero. -/
def CacheValue.new (val : Nat) : Option Nat :=
  let enc := (val + 1) % 256
  if enc = 0 then none else some enc

/-- `CacheValue::get`: recovers the stored value, `self.0.get() - 1`. -/
def CacheValue.get (enc : Nat) : Nat := enc - 1

/-- `get_correctness_packed(row, guess, answer, answer_idx)`: return the
cached packed pattern for the cell `row[answer_idx]` of row `guess_idx`,
computing `Correctness::pack(&Correctness::compute(answer, guess))` and
storing it on a miss.  The `none` result is the `CacheValue::new` unwrap
panic. -/
def get_correctness_packed (compute : String → String → Mask) (cache : Cache)
    (guess_idx : Nat) (guess answer : String) (answer_idx : Nat) :
    Option (Nat × Cache) :=
  match cache guess_idx answer_idx with
  | some a => some (CacheValue.get a, cache)
  | none =>
    let correctness := Correctness.pack (compute answer guess)
    match CacheValue.new correctness with
    | none => none
    | some enc =>
      some (correctness,
        fun g a => if g = guess_idx ∧ a = answer_idx then some enc else cache g a)

/-- The tracked best candidate `Candidate { word, e_score }`. -/
structure Candidate where
  word : String
  e_score : ℚ
deriving DecidableEq

/-- `est_steps_left`: the regression fit `(entropy * 3.870 + 3.679).ln()`,
with `f64::ln` abstracted as `rln`. -/
def est_steps_left (rln : ℚ → ℚ) (entropy : ℚ) : ℚ :=
  rln (entropy * 3.870 + 3.679)

/-- The best-candidate update of the scoring loop: replace only on strict
improvement of `e_score`, start tracking when nothing is tracked yet. -/
def updateBest (best : Option Candidate) (word : String) (e_score : ℚ) :
    Option Candidate :=
  match best with
  | some c => if e_score < c.e_score then some ⟨word, e_score⟩ else some c
  | none => some ⟨word, e_score⟩

/-- The filtering step of `Cached::guess`: retain the candidates whose
cached packed pattern against `last.word` (row `last_idx`) equals
`reference`, threading the cache left to right exactly as
`retain`/`filter` evaluate their predicate. -/
def filterStep (compute : String → String → Mask) (lastWord : String)
    (last_idx reference : Nat) :
    Cache → List Entry → Option (List Entry × Cache)
  | cache, [] => some ([], cache)
  | cache, e :: rest =>
    match get_correctness_packed compute cache last_idx lastWord e.word e.index with
    | none => none
    | some (v, cache₁) =>
      match filterStep compute lastWord last_idx reference cache₁ rest with
      | none => none
      | some (kept, cache₂) =>
        some (if reference = v then e :: kept else kept, cache₂)

/-- The per-candidate bucket accumulation of `Cached::guess`: for every
candidate of the full remaining set, look up the packed pattern of
(guess = `word`, answer = candidate) in row `word_idx` and add the
candidate's weight to that pattern's bucket.  `totals[usize::from(idx)]`
panics (here: `none`) when the index is not below `MAX_MASK_ENUM`. -/
def computeTotals (compute : String → String → Mask) (word_idx : Nat)
    (word : String) :
    Cache → (Nat → ℚ) → List Entry → Option ((Nat → ℚ) × Cache)
  | cache, totals, [] => some (totals, cache)
  | cache, totals, c :: rest =>
    match get_correctness_packed compute cache word_idx word c.word c.index with
    | none => none
    | some (idx, cache₁) =>
      if MAX_MASK_ENUM ≤ idx then none
      else
        computeTotals compute word_idx word cache₁
          (fun k => if k = idx then totals k + c.weight else totals k) rest

/-- One iteration body of the scoring loop of `Cached::guess`: compute the
pattern bucket totals over the full remaining set, the expected
information `e_info` over the non-empty buckets, and the expected score
`e_score` of guessing `e.word` next. -/
def evalEntry (compute : String → String → Mask) (rlog2 rln : ℚ → ℚ)
    (rem_all : List Entry) (remaining_p remaining_entropy score : ℚ)
    (cache : Cache) (e : Entry) : Option (ℚ × Cache) :=
  match computeTotals compute e.index e.word cache (fun _ => 0) rem_all with
  | none => none
  | some (totals, cache₁) =>
    let sum := ((((List.range MAX_MASK_ENUM).map totals).filter
        (fun t => decide (t ≠ 0))).map
        (fun p => (p / remaining_p) * rlog2 (p / remaining_p))).sum
    let p_word := e.weight / remaining_p
    let e_info := -sum
    some (p_word * (score + 1)
        + (1 - p_word) * (score + est_steps_left rln (remaining_entropy - e_info)),
      cache₁)

/-- The scoring loop of `Cached::guess`: evaluate candidates in order,
keep the best under strict improvement, count iterations in `i`, and break
once `i` reaches `stop` (the check happens after the increment, as in the
source).  Returns the tracked best, the final cache, and the final `i`. -/
def scoreLoop (compute : String → String → Mask) (rlog2 rln : ℚ → ℚ)
    (rem_all : List Entry) (remaining_p remaining_entropy score : ℚ)
    (stop : Nat) :
    Cache → Option Candidate → Nat → List Entry →
    Option (Option Candidate × Cache × Nat)
  | cache, best, i, [] => some (best, cache, i)
  | cache, best, i, e :: rest =>
    match evalEntry compute rlog2 rln rem_all remaining_p remaining_entropy score
        cache e with
    | none => none
    | some (es, cache₁) =>
      let best₁ := updateBest best e.word es
      if stop ≤ i + 1 then some (best₁, cache₁, i + 1)
      else
        scoreLoop compute rlog2 rln rem_all remaining_p remaining_entropy score
          stop cache₁ best₁ (i + 1) rest

/-- The guesser state `Cached { remaining, entropy }` (the cache is
thread-local in the source and threaded separately here). -/
structure Cached where
  remaining : List Entry
  entropy : List ℚ
deriving DecidableEq

/-- `Cached::guess(history)`.  `none` is a panic: the `.unwrap()` on the
`find` of the last guessed word, a `CacheValue::new` unwrap, a bucket index
out of bounds, or the final `best.unwrap()`. -/
def Cached.guess (compute : String → String → Mask) (rlog2 rln : ℚ → ℚ)
    (cache : Cache) (self : Cached) (history : List Guess) :
    Option (String × Cached × Cache) :=
  let score : ℚ := history.length
  match history.getLast? with
  | none => some ("tares", self, cache)
  | some last =>
    match self.remaining.find? (fun e => last.word == e.word) with
    | none => none
    | some found =>
      let reference := Correctness.pack last.mask
      match filterStep compute last.word found.index reference cache
          self.remaining with
      | none => none
      | some (rem₁, cache₁) =>
        let remaining_p := (rem₁.map (fun e => e.weight)).sum
        let remaining_entropy :=
          -((rem₁.map (fun e =>
            (e.weight / remaining_p) * rlog2 (e.weight / remaining_p))).sum)
        let stop := max (rem₁.length / 3) 20
        match scoreLoop compute rlog2 rln rem₁ remaining_p remaining_entropy
            score stop cache₁ none 0 rem₁ with
        | none => none
        | some (best, cache₂, _) =>
          match best with
          | none => none
          | some c =>
            some (c.word, ⟨rem₁, self.entropy ++ [remaining_entropy]⟩, cache₂)

/-! ### Cache-free reference functions

The following definitions recompute, without any cache, the values that the
cache-threading functions above produce; the lemmas below prove the two
presentations equal whenever the cache is valid (its populated cells hold
exactly what a write would store). -/

/-- The packed pattern of guessing `guessWord` when the answer is `e.word`. -/
def patternOf (compute : String → String → Mask) (guessWord : String)
    (e : Entry) : Nat :=
  Correctness.pack (compute e.word guessWord)

/-- Cache-free value of one pattern bucket: the total weight of the
candidates of `rem` whose pattern against `word` is `k`. -/
def bucketSum (compute : String → String → Mask) (word : String)
    (rem : List Entry) (k : Nat) : ℚ :=
  ((rem.filter (fun c => decide (patternOf compute word c = k))).map
    (fun c => c.weight)).sum

/-- The bucket totals that claim C2 asserts: the same accumulation but with
the evaluated candidate itself (identified by its dictionary index)
excluded.  Used only to refute that claim. -/
def bucketSumExclSelf (compute : String → String → Mask) (word : String)
    (word_idx : Nat) (rem : List Entry) (k : Nat) : ℚ :=
  ((rem.filter (fun c =>
      decide (c.index ≠ word_idx) && decide (patternOf compute word c = k))).map
    (fun c => c.weight)).sum

/-- Cache-free `e_score` of evaluating `e` against the remaining set. -/
def eScorePure (compute : String → String → Mask) (rlog2 rln : ℚ → ℚ)
    (rem_all : List Entry) (remaining_p remaining_entropy score : ℚ)
    (e : Entry) : ℚ :=
  let sum := ((((List.range MAX_MASK_ENUM).map
      (fun k => bucketSum compute e.word rem_all k)).filter
      (fun t => decide (t ≠ 0))).map
      (fun p => (p / remaining_p) * rlog2 (p / remaining_p))).sum
  let p_word := e.weight / remaining_p
  let e_info := -sum
  p_word * (score + 1)
    + (1 - p_word) * (score + est_steps_left rln (remaining_entropy - e_info))

/-- Cache-free skeleton of the scoring loop: same best tracking, same
post-increment break, no cache. -/
def scoreLoopPure (scoreOf : Entry → ℚ) (stop : Nat) :
    Option Candidate → Nat → List Entry → Option Candidate × Nat
  | best, i, [] => (best, i)
  | best, i, e :: rest =>
    let best₁ := updateBest best e.word (scoreOf e)
    if stop ≤ i + 1 then (best₁, i + 1)
    else scoreLoopPure scoreOf stop best₁ (i + 1) rest

/-- Folding the best-candidate update over a list of (word, e_score)
pairs, starting from no tracked candidate. -/
def foldBest (l : List (String × ℚ)) : Option Candidate :=
  l.foldl (fun b p => updateBest b p.1 p.2) none

/-- The (word, e_score) pairs of exactly the candidates that the scoring
loop of `Cached.guess` evaluates on the given history, in evaluation
order. -/
def evaluatedScores (compute : String → String → Mask) (rlog2 rln : ℚ → ℚ)
    (self : Cached) (history : List Guess) : List (String × ℚ) :=
  match history.getLast? with
  | none => []
  | some last =>
    let reference := Correctness.pack last.mask
    let rem₁ := self.remaining.filter
      (fun e => decide (reference = patternOf compute last.word e))
    let remaining_p := (rem₁.map (fun e => e.weight)).sum
    let remaining_entropy :=
      -((rem₁.map (fun e =>
        (e.weight / remaining_p) * rlog2 (e.weight / remaining_p))).sum)
    let stop := max (rem₁.length / 3) 20
    (rem₁.take stop).map (fun e =>
      (e.word,
        eScorePure compute rlog2 rln rem₁ remaining_p remaining_entropy
          (history.length : ℚ) e))

/-- Cache-free reference version of `Cached.guess`: same result word and
same successor state whenever the cache is valid (`guess_eq_pure`). -/
def guessPure (compute : String → String → Mask) (rlog2 rln : ℚ → ℚ)
    (self : Cached) (history : List Guess) : Option (String × Cached) :=
  match history.getLast? with
  | none => some ("tares", self)
  | some last =>
    match self.remaining.find? (fun e => last.word == e.word) with
    | none => none
    | some _ =>
      let reference := Correctness.pack last.mask
      let rem₁ := self.remaining.filter
        (fun e => decide (reference = patternOf compute last.word e))
      let remaining_p := (rem₁.map (fun e => e.weight)).sum
      let remaining_entropy :=
        -((rem₁.map (fun e =>
          (e.weight / remaining_p) * rlog2 (e.weight / remaining_p))).sum)
      match foldBest (evaluatedScores compute rlog2 rln self history) with
      | none => none
      | some c =>
        some (c.word, ⟨rem₁, self.entropy ++ [remaining_entropy]⟩)

/-! ### Concrete instances for witnesses -/

/-- The all-wrong five-letter pattern (packed value `242`). -/
def maskWrong : Mask := ⟨.Wrong, .Wrong, .Wrong, .Wrong, .Wrong⟩

/-- The all-correct five-letter pattern (packed value `0`). -/
def maskCorrect : Mask := ⟨.Correct, .Correct, .Correct, .Correct, .Correct⟩

/-- A concrete feedback primitive for witnesses: all-correct on a word
against itself, all-wrong otherwise. -/
def cCompute : String → String → Mask := fun a g =>
  if a = g then maskCorrect else maskWrong

/-- A concrete two-word dictionary view for witnesses. -/
def cWordAt : Nat → String := fun i => if i = 0 then "tares" else "raise"

/-- A concrete remaining set for witnesses, matching `cWordAt`. -/
def cRem : List Entry := [⟨"tares", 1, 0⟩, ⟨"raise", 1, 1⟩]

/-- A concrete guesser state for witnesses. -/
def cState : Cached := ⟨cRem, []⟩

/-- A concrete one-entry history for witnesses: "tares" came back
all-wrong. -/
def cHist : List Guess := [⟨"tares", maskWrong⟩]

/-- A fully populated cache for `cCompute`/`cWordAt`, holding in every
cell the encoded value a computation would store. -/
def cCacheFull : Cache := fun g a =>
  some (Correctness.pack (cCompute (cWordAt a) (cWordAt g)) + 1)

/-- The constant-zero stand-in for the abstract `log2`/`ln` parameters in
witnesses. -/
def zfun : ℚ → ℚ := fun _ => 0

/-- A cache state is valid when every populated cell holds exactly the
encoded value that a (re)computation through `get_correctness_packed`
would store for its `(guess_index, answer_index)` pair, where `wordAt`
gives the dictionary word at an index. -/
def ValidCache (compute : String → String → Mask) (wordAt : Nat → String)
    (cache : Cache) : Prop :=
  ∀ g a enc, cache g a = some enc →
    CacheValue.new (Correctness.pack (compute (wordAt a) (wordAt g))) = some enc

/-- Every entry of the list carries the dictionary word of its index
(the invariant tying `remaining` to the cache's axes). -/
def GoodEntries (wordAt : Nat → String) (rem : List Entry) : Prop :=
  ∀ e ∈ rem, e.word = wordAt e.index

/-! ### Basic lemmas on packing and the cache cells -/

theorem Correctness.toNat_le (c : Correctness) : c.toNat ≤ 2 := by
  cases c <;> simp [Correctness.toNat]

theorem Correctness.pack_le (m : Mask) : Correctness.pack m ≤ 242 := by
  obtain ⟨a, b, c, d, e⟩ := m
  have ha := Correctness.toNat_le a
  have hb := Correctness.toNat_le b
  have hc := Correctness.toNat_le c
  have hd := Correctness.toNat_le d
  have he := Correctness.toNat_le e
  simp only [Correctness.pack]
  omega

theorem CacheValue.new_of_le {v : Nat} (h : v ≤ 254) :
    CacheValue.new v = some (v + 1) := by
  have hm : (v + 1) % 256 = v + 1 := Nat.mod_eq_of_lt (by omega)
  simp [CacheValue.new, hm]

theorem CacheValue.new_pack (m : Mask) :
    CacheValue.new (Correctness.pack m) = some (Correctness.pack m + 1) :=
  CacheValue.new_of_le (by have := Correctness.pack_le m; omega)

theorem CacheValue.get_succ (v : Nat) : CacheValue.get (v + 1) = v := by
  simp [CacheValue.get]

/-- On a valid cache, `get_correctness_packed` always succeeds, always
returns the pure packed pattern of its word pair, and preserves
validity. -/
theorem gcp_valid {compute : String → String → Mask} {wordAt : Nat → String}
    {cache : Cache} {gi ai : Nat} {g a : String}
    (hv : ValidCache compute wordAt cache) (hg : wordAt gi = g)
    (ha : wordAt ai = a) :
    ∃ cache₁, get_correctness_packed compute cache gi g a ai =
        some (Correctness.pack (compute a g), cache₁)
      ∧ ValidCache compute wordAt cache₁ := by
  cases hcell : cache gi ai with
  | some enc =>
    have hval := hv gi ai enc hcell
    rw [hg, ha, CacheValue.new_pack] at hval
    injection hval with hval
    refine ⟨cache, ?_, hv⟩
    simp [get_correctness_packed, hcell, ← hval, CacheValue.get_succ]
  | none =>
    refine ⟨fun g₁ a₁ =>
        if g₁ = gi ∧ a₁ = ai then some (Correctness.pack (compute a g) + 1)
        else cache g₁ a₁, ?_, ?_⟩
    · simp [get_correctness_packed, hcell, CacheValue.new_pack]
    · intro g₁ a₁ enc₁ h₁
      simp only [get_correctness_packed, hcell, CacheValue.new_pack] at h₁
      by_cases hga : g₁ = gi ∧ a₁ = ai
      · simp only [hga, if_pos] at h₁
        obtain ⟨hg₁, ha₁⟩ := hga
        subst hg₁; subst ha₁
        rw [hg, ha, CacheValue.new_pack]
        injection h₁ with h₁
        rw [h₁]
      · simp only [hga, if_neg, not_false_iff] at h₁
        exact hv g₁ a₁ enc₁ h₁

/-! ### The filtering step under a valid cache -/

/-- Under a valid cache and index-consistent entries, the filtering step
succeeds, returns exactly the order-preserving sublist of candidates whose
pure packed pattern against the last word equals `reference`, and
preserves cache validity. -/
theorem filterStep_valid {compute : String → String → Mask}
    {wordAt : Nat → String} {lastWord : String} {gi reference : Nat} :
    ∀ (rem : List Entry) (cache : Cache), ValidCache compute wordAt cache →
      wordAt gi = lastWord → GoodEntries wordAt rem →
      ∃ cache₁, filterStep compute lastWord gi reference cache rem =
          some (rem.filter
              (fun e => decide (reference = patternOf compute lastWord e)),
            cache₁)
        ∧ ValidCache compute wordAt cache₁ := by
  intro rem
  induction rem with
  | nil => exact fun cache hv _ _ => ⟨cache, rfl, hv⟩
  | cons e rest ih =>
    intro cache hv hg hgood
    have he : wordAt e.index = e.word := (hgood e (List.mem_cons_self e rest)).symm
    obtain ⟨cache₁, h1, hv1⟩ := gcp_valid hv hg he
    obtain ⟨cache₂, h2, hv2⟩ :=
      ih cache₁ hv1 hg (fun x hx => hgood x (List.mem_cons_of_mem e hx))
    refine ⟨cache₂, ?_, hv2⟩
    simp only [filterStep, h1, h2, List.filter_cons, patternOf]
    by_cases hp : reference = Correctness.pack (compute e.word lastWord) <;>
      simp [hp]

/-! ### Bucket totals under a valid cache -/

theorem bucketSum_nil (compute : String → String → Mask) (w : String)
    (k : Nat) : bucketSum compute w [] k = 0 := by
  simp [bucketSum]

theorem bucketSum_cons (compute : String → String → Mask) (w : String)
    (c : Entry) (rest : List Entry) (k : Nat) :
    bucketSum compute w (c :: rest) k =
      (if patternOf compute w c = k then c.weight else 0)
        + bucketSum compute w rest k := by
  by_cases hp : patternOf compute w c = k <;>
    simp [bucketSum, List.filter_cons, hp]

/-- Under a valid cache and index-consistent entries, the bucket
accumulation succeeds, adds to each starting bucket exactly the total
weight of the candidates producing that pattern, and preserves cache
validity. -/
theorem computeTotals_valid {compute : String → String → Mask}
    {wordAt : Nat → String} {wi : Nat} {w : String} :
    ∀ (rem : List Entry) (cache : Cache) (acc : Nat → ℚ),
      ValidCache compute wordAt cache → wordAt wi = w →
      GoodEntries wordAt rem →
      ∃ totals cache₁,
        computeTotals compute wi w cache acc rem = some (totals, cache₁)
        ∧ (∀ k, totals k = acc k + bucketSum compute w rem k)
        ∧ ValidCache compute wordAt cache₁ := by
  intro rem
  induction rem with
  | nil =>
    intro cache acc hv _ _
    exact ⟨acc, cache, rfl, fun k => by simp [bucketSum_nil], hv⟩
  | cons c rest ih =>
    intro cache acc hv hw hgood
    have hc : wordAt c.index = c.word := (hgood c (List.mem_cons_self c rest)).symm
    obtain ⟨cache₁, h1, hv1⟩ := gcp_valid hv hw hc
    have hbound : ¬ MAX_MASK_ENUM ≤ Correctness.pack (compute c.word w) := by
      have := Correctness.pack_le (compute c.word w)
      simp only [MAX_MASK_ENUM]
      omega
    obtain ⟨totals, cache₂, h2, htot, hv2⟩ :=
      ih cache₁
        (fun k => if k = Correctness.pack (compute c.word w) then acc k + c.weight
          else acc k)
        hv1 hw (fun x hx => hgood x (List.mem_cons_of_mem c hx))
    refine ⟨totals, cache₂, ?_, ?_, hv2⟩
    · simp only [computeTotals, h1, hbound, if_neg, not_false_iff]
      exact h2
    · intro k
      rw [htot k, bucketSum_cons]
      simp only [patternOf]
      by_cases hk : k = Correctness.pack (compute c.word w)
      · have hk2 : Correctness.pack (compute c.word w) = k := hk.symm
        simp only [if_pos hk, if_pos hk2]
        ring
      · have hk2 : ¬ Correctness.pack (compute c.word w) = k := fun h => hk h.symm
        simp only [if_neg hk, if_neg hk2]
        ring

/-! ### The scoring loop under a valid cache -/

/-- Under a valid cache, evaluating a candidate succeeds, produces the
cache-free `e_score`, and preserves cache validity. -/
theorem evalEntry_valid {compute : String → String → Mask}
    {wordAt : Nat → String} {rlog2 rln : ℚ → ℚ} {rem_all : List Entry}
    {remaining_p remaining_entropy score : ℚ} {cache : Cache} {e : Entry}
    (hv : ValidCache compute wordAt cache) (he : wordAt e.index = e.word)
    (hall : GoodEntries wordAt rem_all) :
    ∃ cache₁, evalEntry compute rlog2 rln rem_all remaining_p
        remaining_entropy score cache e =
      some (eScorePure compute rlog2 rln rem_all remaining_p
          remaining_entropy score e, cache₁)
      ∧ ValidCache compute wordAt cache₁ := by
  obtain ⟨totals, cache₁, h1, htot, hv1⟩ :=
    computeTotals_valid rem_all cache (fun _ => 0) hv he hall
  refine ⟨cache₁, ?_, hv1⟩
  have hmap : (List.range MAX_MASK_ENUM).map totals =
      (List.range MAX_MASK_ENUM).map
        (fun k => bucketSum compute e.word rem_all k) :=
    List.map_congr_left (fun k _ => by rw [htot k, zero_add])
  simp only [evalEntry, h1, hmap, eScorePure]

/-- Under a valid cache, the scoring loop succeeds, computes exactly what
its cache-free skeleton computes on the pure scores, and preserves cache
validity. -/
theorem scoreLoop_valid {compute : String → String → Mask}
    {wordAt : Nat → String} {rlog2 rln : ℚ → ℚ} {rem_all : List Entry}
    {remaining_p remaining_entropy score : ℚ} {stop : Nat} :
    ∀ (l : List Entry) (cache : Cache) (best : Option Candidate) (i : Nat),
      ValidCache compute wordAt cache → GoodEntries wordAt rem_all →
      GoodEntries wordAt l →
      ∃ cache₁, scoreLoop compute rlog2 rln rem_all remaining_p
          remaining_entropy score stop cache best i l =
        some ((scoreLoopPure (eScorePure compute rlog2 rln rem_all remaining_p
              remaining_entropy score) stop best i l).1, cache₁,
          (scoreLoopPure (eScorePure compute rlog2 rln rem_all remaining_p
              remaining_entropy score) stop best i l).2)
        ∧ ValidCache compute wordAt cache₁ := by
  intro l
  induction l with
  | nil => exact fun cache best i hv _ _ => ⟨cache, rfl, hv⟩
  | cons e rest ih =>
    intro cache best i hv hall hl
    have he : wordAt e.index = e.word := (hl e (List.mem_cons_self e rest)).symm
    obtain ⟨cache₁, h1, hv1⟩ :=
      @evalEntry_valid compute wordAt rlog2 rln rem_all remaining_p
        remaining_entropy score cache e hv he hall
    by_cases hstop : stop ≤ i + 1
    · refine ⟨cache₁, ?_, hv1⟩
      simp [scoreLoop, h1, scoreLoopPure, hstop]
    · obtain ⟨cache₂, h2, hv2⟩ :=
        ih cache₁ (updateBest best e.word
          (eScorePure compute rlog2 rln rem_all remaining_p remaining_entropy
            score e)) (i + 1) hv1 hall
          (fun x hx => hl x (List.mem_cons_of_mem e hx))
      refine ⟨cache₂, ?_, hv2⟩
      simp [scoreLoop, h1, scoreLoopPure, hstop, h2]

/-! ### The cache-free scoring skeleton -/

/-- The loop counter of the scoring skeleton: starting at `i < stop`, the
loop evaluates candidates until the list or the budget runs out. -/
theorem scoreLoopPure_count (scoreOf : Entry → ℚ) (stop : Nat) :
    ∀ (l : List Entry) (best : Option Candidate) (i : Nat), i < stop →
      (scoreLoopPure scoreOf stop best i l).2 = min (i + l.length) stop := by
  intro l
  induction l with
  | nil =>
    intro best i hi
    simp only [scoreLoopPure, List.length_nil, Nat.add_zero]
    omega
  | cons e rest ih =>
    intro best i hi
    by_cases hstop : stop ≤ i + 1
    · simp only [scoreLoopPure, hstop, if_pos, List.length_cons]
      omega
    · simp only [scoreLoopPure, hstop, if_neg, not_false_iff, List.length_cons]
      rw [ih _ (i + 1) (by omega)]
      omega

/-- The tracked best of the scoring skeleton is the fold of the best
update over exactly the first `stop - i` candidates. -/
theorem scoreLoopPure_best (scoreOf : Entry → ℚ) (stop : Nat) :
    ∀ (l : List Entry) (best : Option Candidate) (i : Nat), i < stop →
      (scoreLoopPure scoreOf stop best i l).1 =
        (l.take (stop - i)).foldl (fun b e => updateBest b e.word (scoreOf e))
          best := by
  intro l
  induction l with
  | nil =>
    intro best i _
    simp [scoreLoopPure]
  | cons e rest ih =>
    intro best i hi
    by_cases hstop : stop ≤ i + 1
    · have h1 : stop - i = 1 := by omega
      simp [scoreLoopPure, hstop, h1]
    · have h1 : stop - i = (stop - (i + 1)) + 1 := by omega
      simp only [scoreLoopPure, hstop, if_neg, not_false_iff]
      rw [ih _ (i + 1) (by omega), h1, List.take_succ_cons, List.foldl_cons]

/-! ### First-strict-minimum characterization of the best fold -/

/-- Folding the best update from a tracked candidate `c` yields either `c`
itself (when no later score strictly beats it) or the first list element
that strictly beats `c` and everything before it while staying no worse
than everything after it. -/
theorem foldBest_go :
    ∀ (l : List (String × ℚ)) (c : Candidate),
      ∃ d : Candidate,
        List.foldl (fun b p => updateBest b p.1 p.2) (some c) l = some d
        ∧ ((d = c ∧ ∀ p ∈ l, c.e_score ≤ p.2)
          ∨ (∃ i, ∃ hi : i < l.length,
              d.word = (l.get ⟨i, hi⟩).1 ∧ d.e_score = (l.get ⟨i, hi⟩).2
              ∧ d.e_score < c.e_score
              ∧ (∀ j, ∀ hj : j < l.length, j < i →
                  d.e_score < (l.get ⟨j, hj⟩).2)
              ∧ (∀ j, ∀ hj : j < l.length, i < j →
                  d.e_score ≤ (l.get ⟨j, hj⟩).2))) := by
  intro l
  induction l with
  | nil => exact fun c => ⟨c, rfl, Or.inl ⟨rfl, by simp⟩⟩
  | cons p rest ih =>
    intro c
    by_cases hp : p.2 < c.e_score
    · obtain ⟨d, hd, hcase⟩ := ih ⟨p.1, p.2⟩
      refine ⟨d, ?_, ?_⟩
      · simpa [updateBest, hp] using hd
      · rcases hcase with ⟨hdc, hrest⟩ | ⟨i, hi, hw, hs, hlt, hbefore, hafter⟩
        · refine Or.inr ⟨0, by simp, ?_, ?_, ?_, ?_, ?_⟩
          · simp [hdc]
          · simp [hdc]
          · rw [hdc]; exact hp
          · intro j hj hj0; omega
          · intro j hj hij
            cases j with
            | zero => omega
            | succ j =>
              rw [hdc]
              simpa using hrest (rest.get ⟨j, by simpa using hj⟩)
                (rest.get_mem _ _)
        · refine Or.inr ⟨i + 1, by simpa using hi, by simpa using hw,
            by simpa using hs, lt_trans hlt hp, ?_, ?_⟩
          · intro j hj hij
            cases j with
            | zero => simpa using hlt
            | succ j =>
              have := hbefore j (by simpa using hj) (by omega)
              simpa using this
          · intro j hj hij
            cases j with
            | zero => omega
            | succ j =>
              have := hafter j (by simpa using hj) (by omega)
              simpa using this
    · obtain ⟨d, hd, hcase⟩ := ih c
      refine ⟨d, ?_, ?_⟩
      · simpa [updateBest, hp] using hd
      · rcases hcase with ⟨hdc, hrest⟩ | ⟨i, hi, hw, hs, hlt, hbefore, hafter⟩
        · refine Or.inl ⟨hdc, ?_⟩
          intro q hq
          rcases List.mem_cons.mp hq with hq | hq
          · subst hq; exact le_of_not_lt hp
          · exact hrest q hq
        · refine Or.inr ⟨i + 1, by simpa using hi, by simpa using hw,
            by simpa using hs, hlt, ?_, ?_⟩
          · intro j hj hij
            cases j with
            | zero =>
              have hdp : d.e_score < p.2 := lt_of_lt_of_le hlt (le_of_not_lt hp)
              simpa using hdp
            | succ j =>
              have := hbefore j (by simpa using hj) (by omega)
              simpa using this
          · intro j hj hij
            cases j with
            | zero => omega
            | succ j =>
              have := hafter j (by simpa using hj) (by omega)
              simpa using this

/-- `foldBest` of a non-empty score list is the earliest candidate whose
score is strictly below every earlier score and at most every later
score. -/
theorem foldBest_firstMin (l : List (String × ℚ)) (hne : l ≠ []) :
    ∃ d : Candidate, ∃ i, ∃ hi : i < l.length,
      foldBest l = some d
      ∧ d.word = (l.get ⟨i, hi⟩).1 ∧ d.e_score = (l.get ⟨i, hi⟩).2
      ∧ (∀ j, ∀ hj : j < l.length, j < i → d.e_score < (l.get ⟨j, hj⟩).2)
      ∧ (∀ j, ∀ hj : j < l.length, i < j → d.e_score ≤ (l.get ⟨j, hj⟩).2) := by
  cases l with
  | nil => exact absurd rfl hne
  | cons p rest =>
    obtain ⟨d, hd, hcase⟩ := foldBest_go rest ⟨p.1, p.2⟩
    have hfold : foldBest (p :: rest) = some d := by
      simpa [foldBest, updateBest] using hd
    rcases hcase with ⟨hdc, hrest⟩ | ⟨i, hi, hw, hs, hlt, hbefore, hafter⟩
    · refine ⟨d, 0, by simp, hfold, by simp [hdc], by simp [hdc], ?_, ?_⟩
      · intro j hj hj0; omega
      · intro j hj hij
        cases j with
        | zero => omega
        | succ j =>
          rw [hdc]
          simpa using hrest (rest.get ⟨j, by simpa using hj⟩) (rest.get_mem _ _)
    · refine ⟨d, i + 1, by simpa using hi, hfold, by simpa using hw,
        by simpa using hs, ?_, ?_⟩
      · intro j hj hij
        cases j with
        | zero => simpa using hlt
        | succ j =>
          have := hbefore j (by simpa using hj) (by omega)
          simpa using this
      · intro j hj hij
        cases j with
        | zero => omega
        | succ j =>
          have := hafter j (by simpa using hj) (by omega)
          simpa using this

/-- The best fold of a list of scores is `none` exactly on the empty
list. -/
theorem foldBest_eq_none_iff (l : List (String × ℚ)) :
    foldBest l = none ↔ l = [] := by
  cases l with
  | nil => simp [foldBest]
  | cons p rest =>
    obtain ⟨d, hd, _⟩ := foldBest_go rest ⟨p.1, p.2⟩
    have hfold : foldBest (p :: rest) = some d := by
      simpa [foldBest, updateBest] using hd
    simp [hfold]

/-! ### The master refinement: `Cached.guess` against its cache-free
version -/

/-- Under a valid cache and index-consistent remaining entries, the word
and successor state produced by `Cached.guess` are exactly those of the
cache-free `guessPure`; in particular they do not depend on the cache
contents. -/
theorem guess_eq_pure {compute : String → String → Mask}
    {wordAt : Nat → String} {rlog2 rln : ℚ → ℚ} {cache : Cache} {s : Cached}
    {history : List Guess} (hv : ValidCache compute wordAt cache)
    (hgood : GoodEntries wordAt s.remaining) :
    (Cached.guess compute rlog2 rln cache s history).map (fun r => (r.1, r.2.1))
      = guessPure compute rlog2 rln s history := by
  cases hlast : history.getLast? with
  | none => simp [Cached.guess, guessPure, hlast]
  | some last =>
    cases hfind : s.remaining.find? (fun e => last.word == e.word) with
    | none => simp [Cached.guess, guessPure, hlast, hfind]
    | some found =>
      have hmem : found ∈ s.remaining := List.mem_of_find?_eq_some hfind
      have hbeq := List.find?_some hfind
      have hword : last.word = found.word := by simpa using hbeq
      have hfi : wordAt found.index = last.word := by
        rw [hword, hgood found hmem]
      obtain ⟨cache₁, hfs, hv1⟩ :=
        @filterStep_valid compute wordAt last.word found.index
          (Correctness.pack last.mask) s.remaining cache hv hfi hgood
      have hgood₁ : GoodEntries wordAt (s.remaining.filter
          (fun e => decide (Correctness.pack last.mask
            = patternOf compute last.word e))) :=
        fun e he => hgood e (List.mem_of_mem_filter he)
      obtain ⟨cache₂, hsl, hv2⟩ :=
        @scoreLoop_valid compute wordAt rlog2 rln
          (s.remaining.filter (fun e => decide (Correctness.pack last.mask
            = patternOf compute last.word e)))
          (((s.remaining.filter (fun e => decide (Correctness.pack last.mask
            = patternOf compute last.word e))).map (fun e => e.weight)).sum)
          (-(((s.remaining.filter (fun e => decide (Correctness.pack last.mask
              = patternOf compute last.word e))).map (fun e =>
            (e.weight / (((s.remaining.filter (fun e =>
                decide (Correctness.pack last.mask
                  = patternOf compute last.word e))).map
              (fun e => e.weight)).sum))
            * rlog2 (e.weight / (((s.remaining.filter (fun e =>
                decide (Correctness.pack last.mask
                  = patternOf compute last.word e))).map
              (fun e => e.weight)).sum)))).sum))
          (history.length : ℚ)
          (max ((s.remaining.filter (fun e => decide (Correctness.pack last.mask
            = patternOf compute last.word e))).length / 3) 20)
          (s.remaining.filter (fun e => decide (Correctness.pack last.mask
            = patternOf compute last.word e)))
          cache₁ none 0 hv1 hgood₁ hgood₁
      have hstop : 0 < max ((s.remaining.filter (fun e =>
          decide (Correctness.pack last.mask
            = patternOf compute last.word e))).length / 3) 20 := by
        have := Nat.le_max_right ((s.remaining.filter (fun e =>
          decide (Correctness.pack last.mask
            = patternOf compute last.word e))).length / 3) 20
        omega
      have hbest := scoreLoopPure_best
        (eScorePure compute rlog2 rln
          (s.remaining.filter (fun e => decide (Correctness.pack last.mask
            = patternOf compute last.word e)))
          (((s.remaining.filter (fun e => decide (Correctness.pack last.mask
            = patternOf compute last.word e))).map (fun e => e.weight)).sum)
          (-(((s.remaining.filter (fun e => decide (Correctness.pack last.mask
              = patternOf compute last.word e))).map (fun e =>
            (e.weight / (((s.remaining.filter (fun e =>
                decide (Correctness.pack last.mask
                  = patternOf compute last.word e))).map
              (fun e => e.weight)).sum))
            * rlog2 (e.weight / (((s.remaining.filter (fun e =>
                decide (Correctness.pack last.mask
                  = patternOf compute last.word e))).map
              (fun e => e.weight)).sum)))).sum))
          (history.length : ℚ))
        (max ((s.remaining.filter (fun e => decide (Correctness.pack last.mask
          = patternOf compute last.word e))).length / 3) 20)
        (s.remaining.filter (fun e => decide (Correctness.pack last.mask
          = patternOf compute last.word e)))
        none 0 hstop
      rw [Nat.sub_zero] at hbest
      have hfold : foldBest (evaluatedScores compute rlog2 rln s history) =
          (scoreLoopPure (eScorePure compute rlog2 rln
            (s.remaining.filter (fun e => decide (Correctness.pack last.mask
              = patternOf compute last.word e)))
            (((s.remaining.filter (fun e => decide (Correctness.pack last.mask
              = patternOf compute last.word e))).map (fun e => e.weight)).sum)
            (-(((s.remaining.filter (fun e => decide (Correctness.pack last.mask
                = patternOf compute last.word e))).map (fun e =>
              (e.weight / (((s.remaining.filter (fun e =>
                  decide (Correctness.pack last.mask
                    = patternOf compute last.word e))).map
                (fun e => e.weight)).sum))
              * rlog2 (e.weight / (((s.remaining.filter (fun e =>
                  decide (Correctness.pack last.mask
                    = patternOf compute last.word e))).map
                (fun e => e.weight)).sum)))).sum))
            (history.length : ℚ))
          (max ((s.remaining.filter (fun e => decide (Correctness.pack last.mask
            = patternOf compute last.word e))).length / 3) 20)
          none 0
          (s.remaining.filter (fun e => decide (Correctness.pack last.mask
            = patternOf compute last.word e)))).1 := by
        rw [hbest]
        simp only [evaluatedScores, hlast, foldBest, List.foldl_map]
      simp only [Cached.guess, guessPure, hlast, hfind, hfs, hsl, hfold]
      cases (scoreLoopPure (eScorePure compute rlog2 rln
          (s.remaining.filter (fun e => decide (Correctness.pack last.mask
            = patternOf compute last.word e)))
          (((s.remaining.filter (fun e => decide (Correctness.pack last.mask
            = patternOf compute last.word e))).map (fun e => e.weight)).sum)
          (-(((s.remaining.filter (fun e => decide (Correctness.pack last.mask
              = patternOf compute last.word e))).map (fun e =>
            (e.weight / (((s.remaining.filter (fun e =>
                decide (Correctness.pack last.mask
                  = patternOf compute last.word e))).map
              (fun e => e.weight)).sum))
            * rlog2 (e.weight / (((s.remaining.filter (fun e =>
                decide (Correctness.pack last.mask
                  = patternOf compute last.word e))).map
              (fun e => e.weight)).sum)))).sum))
          (history.length : ℚ))
        (max ((s.remaining.filter (fun e => decide (Correctness.pack last.mask
          = patternOf compute last.word e))).length / 3) 20)
        none 0
        (s.remaining.filter (fun e => decide (Correctness.pack last.mask
          = patternOf compute last.word e)))).1 with
      | none => rfl
      | some c => rfl

/-! ### Small helpers shared by the claim theorems and their witnesses -/

/-- The all-`none` cache is vacuously valid. -/
theorem validCache_mkDefault (compute : String → String → Mask)
    (wordAt : Nat → String) : ValidCache compute wordAt Cache.mkDefault :=
  fun _ _ _ h => Option.noConfusion h

/-- The fully populated concrete cache is valid for the concrete witness
primitive and dictionary. -/
theorem validCache_cCacheFull : ValidCache cCompute cWordAt cCacheFull := by
  intro g a enc h
  simp only [cCacheFull] at h
  injection h with h
  rw [CacheValue.new_pack, h]

/-- The concrete witness remaining set is index-consistent. -/
theorem goodEntries_cRem : GoodEntries cWordAt cRem := by
  intro e he
  simp only [cRem, List.mem_cons, List.mem_singleton] at he
  rcases he with rfl | rfl | h
  · rfl
  · rfl
  · simp at h

/-- A word produced by the best fold occurs in the folded score list. -/
theorem foldBest_word_mem {l : List (String × ℚ)} {c : Candidate}
    (h : foldBest l = some c) : c.word ∈ l.map (fun p => p.1) := by
  have hne : l ≠ [] := by
    intro hnil
    rw [hnil] at h
    simp [foldBest] at h
  obtain ⟨d, i, hi, hfold, hw, _, _, _⟩ := foldBest_firstMin l hne
  rw [h] at hfold
  injection hfold with hfold
  rw [← hfold] at hw
  rw [hw]
  exact List.mem_map_of_mem _ (List.get_mem l i hi)

/-! ### The claims -/

/-- C5: with an empty history, `guess` returns the fixed opening word
"tares" immediately: the remaining set, the entropy trace and the cache are
all returned unchanged, and no scoring computation happens. -/
theorem C5_first_turn_fixed_opening (compute : String → String → Mask)
    (rlog2 rln : ℚ → ℚ) (cache : Cache) (s : Cached) :
    Cached.guess compute rlog2 rln cache s [] = some ("tares", s, cache) := rfl

/-- C1: the filtering step of `guess` on a non-empty history succeeds and
keeps exactly the members of the pre-filter remaining set, in their
original order, whose packed pattern against the last guessed word equals
the packed observed pattern; every survivor satisfies
`pack (compute c.word last.word) = pack last.mask`. -/
theorem C1_filter_pattern_consistency {compute : String → String → Mask}
    {wordAt : Nat → String} {cache : Cache} {rem : List Entry} {last : Guess}
    {found : Entry} (hv : ValidCache compute wordAt cache)
    (hgood : GoodEntries wordAt rem)
    (hfind : rem.find? (fun e => last.word == e.word) = some found) :
    ∃ cache₁, filterStep compute last.word found.index
        (Correctness.pack last.mask) cache rem =
      some (rem.filter (fun e => decide (Correctness.pack last.mask
          = patternOf compute last.word e)), cache₁)
      ∧ ∀ e ∈ rem.filter (fun e => decide (Correctness.pack last.mask
          = patternOf compute last.word e)),
          Correctness.pack (compute e.word last.word)
            = Correctness.pack last.mask := by
  have hmem : found ∈ rem := List.mem_of_find?_eq_some hfind
  have hword : last.word = found.word := by simpa using List.find?_some hfind
  have hfi : wordAt found.index = last.word := by
    rw [hword, hgood found hmem]
  obtain ⟨cache₁, hfs, _⟩ :=
    @filterStep_valid compute wordAt last.word found.index
      (Correctness.pack last.mask) rem cache hv hfi hgood
  refine ⟨cache₁, hfs, ?_⟩
  intro e he
  have h2 : Correctness.pack last.mask = patternOf compute last.word e := by
    simpa using List.of_mem_filter he
  simpa [patternOf] using h2.symm

/-- C8: filtering never grows the remaining set; its size is preserved
exactly when every pre-filter candidate matches the observed pattern, and
any successful `guess` call (empty history included) leaves the remaining
set no larger than before. -/
theorem C8_monotonic_narrowing {compute : String → String → Mask}
    {wordAt : Nat → String} {rlog2 rln : ℚ → ℚ} {cache : Cache} {s : Cached}
    {last : Guess} {found : Entry} (hv : ValidCache compute wordAt cache)
    (hgood : GoodEntries wordAt s.remaining)
    (hfind : s.remaining.find? (fun e => last.word == e.word) = some found) :
    (∃ rem₁ cache₁, filterStep compute last.word found.index
        (Correctness.pack last.mask) cache s.remaining = some (rem₁, cache₁)
      ∧ rem₁.length ≤ s.remaining.length
      ∧ (rem₁.length = s.remaining.length ↔
          ∀ e ∈ s.remaining, Correctness.pack (compute e.word last.word)
            = Correctness.pack last.mask))
    ∧ ∀ (history : List Guess) (w : String) (s₁ : Cached) (cache₂ : Cache),
        Cached.guess compute rlog2 rln cache s history = some (w, s₁, cache₂) →
        s₁.remaining.length ≤ s.remaining.length := by
  constructor
  · have hmem : found ∈ s.remaining := List.mem_of_find?_eq_some hfind
    have hword : last.word = found.word := by simpa using List.find?_some hfind
    have hfi : wordAt found.index = last.word := by
      rw [hword, hgood found hmem]
    obtain ⟨cache₁, hfs, _⟩ :=
      @filterStep_valid compute wordAt last.word found.index
        (Correctness.pack last.mask) s.remaining cache hv hfi hgood
    refine ⟨_, cache₁, hfs, List.length_filter_le _ _, ?_⟩
    rw [List.filter_length_eq_length]
    constructor
    · intro hall e he
      have h2 : Correctness.pack last.mask = patternOf compute last.word e := by
        simpa using hall e he
      simpa [patternOf] using h2.symm
    · intro hall e he
      have h2 := hall e he
      simp only [patternOf]
      simpa using h2.symm
  · intro history w s₁ cache₂ hres
    have hmap := @guess_eq_pure compute wordAt rlog2 rln cache s history hv hgood
    rw [hres] at hmap
    cases hlast : history.getLast? with
    | none =>
      simp only [guessPure, hlast, Option.map_some] at hmap
      injection hmap with hmap
      have : s₁ = s := congrArg Prod.snd hmap
      rw [this]
    | some last₁ =>
      simp only [guessPure, hlast, Option.map_some] at hmap
      cases hfind₁ : s.remaining.find? (fun e => last₁.word == e.word) with
      | none => rw [hfind₁] at hmap; simp at hmap
      | some found₁ =>
        rw [hfind₁] at hmap
        cases hfold : foldBest (evaluatedScores compute rlog2 rln s history) with
        | none => rw [hfold] at hmap; simp at hmap
        | some c =>
          rw [hfold] at hmap
          simp only [Option.some.injEq, Prod.mk.injEq] at hmap
          obtain ⟨hw, hs₁⟩ := hmap
          exact List.length_filter_le _ _

/-- C2 counterexample: the bucket totals do include the evaluated
candidate's own weight.  With the one-word remaining set `["tares"]` and
the evaluated word "tares" itself, the bucket of the self-feedback pattern
(packed value 0) ends at weight 1, while the accumulation claimed by C2
(which excludes the evaluated word) would leave every bucket at 0. -/
theorem C2_counterexample :
    ¬ (∀ (totals : Nat → ℚ) (cache₁ : Cache),
        computeTotals cCompute 0 "tares" Cache.mkDefault (fun _ => 0)
          [⟨"tares", 1, 0⟩] = some (totals, cache₁) →
        ∀ k, totals k = bucketSumExclSelf cCompute "tares" 0
          [⟨"tares", 1, 0⟩] k) := by
  intro h
  have hgood : GoodEntries cWordAt [⟨"tares", 1, 0⟩] := by
    intro e he
    simp only [List.mem_singleton] at he
    subst he
    rfl
  obtain ⟨totals, cache₁, heq, ht, _⟩ :=
    @computeTotals_valid cCompute cWordAt 0 "tares" [⟨"tares", 1, 0⟩]
      Cache.mkDefault (fun _ => 0) (validCache_mkDefault cCompute cWordAt)
      rfl hgood
  have h0 := h totals cache₁ heq 0
  rw [ht 0] at h0
  have e1 : bucketSum cCompute "tares" [⟨"tares", 1, 0⟩] 0 = 1 := by
    simp [bucketSum, patternOf, cCompute, maskCorrect, Correctness.pack,
      Correctness.toNat]
  have e2 : bucketSumExclSelf cCompute "tares" 0 [⟨"tares", 1, 0⟩] 0 = 0 := by
    simp [bucketSumExclSelf]
  rw [e1, e2] at h0
  norm_num at h0

/-- C2 (amended): for every evaluated candidate, the per-pattern bucket
totals accumulate the weights of every candidate in the full remaining
set, the evaluated candidate itself included: bucket `k` ends at the total
weight of the remaining candidates whose pattern against the evaluated
word is `k`. -/
theorem C2_buckets_cover_full_remaining {compute : String → String → Mask}
    {wordAt : Nat → String} {cache : Cache} {rem : List Entry} {e : Entry}
    (hv : ValidCache compute wordAt cache) (he : wordAt e.index = e.word)
    (hgood : GoodEntries wordAt rem) :
    ∃ totals cache₁,
      computeTotals compute e.index e.word cache (fun _ => 0) rem
        = some (totals, cache₁)
      ∧ ∀ k, totals k = bucketSum compute e.word rem k := by
  obtain ⟨totals, cache₁, heq, ht, _⟩ :=
    computeTotals_valid rem cache (fun _ => 0) hv he hgood
  exact ⟨totals, cache₁, heq, fun k => by rw [ht k, zero_add]⟩

/-- C4: with the budget `stop = max(20, len / 3)` of the source, the
scoring loop evaluates exactly `min(len, stop)` candidates — the first
ones in order — and in particular 20 of 60 and 33 of 100. -/
theorem C4_search_budget {compute : String → String → Mask}
    {wordAt : Nat → String} {rlog2 rln : ℚ → ℚ}
    {remaining_p remaining_entropy score : ℚ} {rem : List Entry}
    {cache : Cache} (hv : ValidCache compute wordAt cache)
    (hgood : GoodEntries wordAt rem) :
    ∃ best cache₁,
      scoreLoop compute rlog2 rln rem remaining_p remaining_entropy score
        (max (rem.length / 3) 20) cache none 0 rem =
      some (best, cache₁, min rem.length (max (rem.length / 3) 20))
      ∧ (rem.length = 60 → min rem.length (max (rem.length / 3) 20) = 20)
      ∧ (rem.length = 100 → min rem.length (max (rem.length / 3) 20) = 33) := by
  obtain ⟨cache₁, hsl, _⟩ :=
    @scoreLoop_valid compute wordAt rlog2 rln rem remaining_p
      remaining_entropy score (max (rem.length / 3) 20) rem cache none 0
      hv hgood hgood
  have hstop : 0 < max (rem.length / 3) 20 := by
    have := Nat.le_max_right (rem.length / 3) 20
    omega
  have hcount := scoreLoopPure_count
    (eScorePure compute rlog2 rln rem remaining_p remaining_entropy score)
    (max (rem.length / 3) 20) rem none 0 hstop
  rw [Nat.zero_add] at hcount
  rw [hcount] at hsl
  refine ⟨_, cache₁, hsl, ?_, ?_⟩
  · intro h; rw [h]; decide
  · intro h; rw [h]; decide

/-- C3: on a non-empty history, `guess` aborts exactly when the last
guessed word is absent from the pre-filter remaining set or the filtered
remaining set is empty when scoring starts; whenever it returns a word on
a non-empty history, that word belongs to the (post-filter, hence also to
the pre-filter) remaining set. -/
theorem C3_failure_characterization {compute : String → String → Mask}
    {wordAt : Nat → String} {rlog2 rln : ℚ → ℚ} {cache : Cache} {s : Cached}
    {history : List Guess} (hv : ValidCache compute wordAt cache)
    (hgood : GoodEntries wordAt s.remaining) :
    (Cached.guess compute rlog2 rln cache s history = none ↔
      ∃ last, history.getLast? = some last ∧
        ((∀ e ∈ s.remaining, e.word ≠ last.word)
          ∨ s.remaining.filter (fun e => decide (Correctness.pack last.mask
              = patternOf compute last.word e)) = []))
    ∧ ∀ w s₁ cache₂,
        Cached.guess compute rlog2 rln cache s history = some (w, s₁, cache₂) →
        history ≠ [] →
        w ∈ s₁.remaining.map (fun e => e.word)
        ∧ w ∈ s.remaining.map (fun e => e.word) := by
  have hmap := @guess_eq_pure compute wordAt rlog2 rln cache s history hv hgood
  constructor
  · have hnone : Cached.guess compute rlog2 rln cache s history = none ↔
        guessPure compute rlog2 rln s history = none := by
      rw [← hmap]
      cases Cached.guess compute rlog2 rln cache s history <;> simp
    rw [hnone]
    cases hlast : history.getLast? with
    | none => simp [guessPure, hlast]
    | some last =>
      have hr : (∃ last₁, some last = some last₁ ∧
          ((∀ e ∈ s.remaining, e.word ≠ last₁.word)
            ∨ s.remaining.filter (fun e => decide (Correctness.pack last₁.mask
                = patternOf compute last₁.word e)) = [])) ↔
          ((∀ e ∈ s.remaining, e.word ≠ last.word)
            ∨ s.remaining.filter (fun e => decide (Correctness.pack last.mask
                = patternOf compute last.word e)) = []) := by
        constructor
        · rintro ⟨last₁, hl, h⟩
          injection hl with hl
          rw [hl]
          exact h
        · exact fun h => ⟨last, rfl, h⟩
      rw [hr]
      cases hfind : s.remaining.find? (fun e => last.word == e.word) with
      | none =>
        have hall := List.find?_eq_none.mp hfind
        simp only [guessPure, hlast, hfind]
        constructor
        · intro _
          exact Or.inl (fun e he heq => by
            have hb := hall e he
            simp [heq] at hb)
        · intro _
          trivial
      | some found =>
        have hfmem : found ∈ s.remaining := List.mem_of_find?_eq_some hfind
        have hfword : last.word = found.word := by
          simpa using List.find?_some hfind
        have hnotA : ¬ (∀ e ∈ s.remaining, e.word ≠ last.word) := by
          intro hA
          exact hA found hfmem hfword.symm
        simp only [guessPure, hlast, hfind]
        cases hfold : foldBest (evaluatedScores compute rlog2 rln s history) with
        | none =>
          have hscored : evaluatedScores compute rlog2 rln s history = [] :=
            (foldBest_eq_none_iff _).mp hfold
          simp only [evaluatedScores, hlast] at hscored
          rw [List.map_eq_nil_iff, List.take_eq_nil_iff] at hscored
          have hstop : max ((s.remaining.filter (fun e =>
              decide (Correctness.pack last.mask
                = patternOf compute last.word e))).length / 3) 20 ≠ 0 := by
            have := Nat.le_max_right ((s.remaining.filter (fun e =>
              decide (Correctness.pack last.mask
                = patternOf compute last.word e))).length / 3) 20
            omega
          rcases hscored with hscored | hscored
          · exact absurd hscored hstop
          · constructor
            · intro _
              exact Or.inr hscored
            · intro _
              trivial
        | some c =>
          constructor
          · intro h
            exact Option.noConfusion h
          · intro h
            rcases h with h | h
            · exact absurd h hnotA
            · have hnil : evaluatedScores compute rlog2 rln s history = [] := by
                simp only [evaluatedScores, hlast, h]
                simp
              rw [hnil] at hfold
              simp [foldBest] at hfold
  · intro w s₁ cache₂ hres hne
    rw [hres] at hmap
    have hlast : ∃ last, history.getLast? = some last := by
      cases hl : history.getLast? with
      | none => exact absurd (List.getLast?_eq_none_iff.mp hl) hne
      | some last => exact ⟨last, rfl⟩
    obtain ⟨last, hlast⟩ := hlast
    cases hfind : s.remaining.find? (fun e => last.word == e.word) with
    | none => simp [guessPure, hlast, hfind] at hmap
    | some found =>
      simp only [guessPure, hlast, hfind, Option.map_some'] at hmap
      cases hfold : foldBest (evaluatedScores compute rlog2 rln s history) with
      | none => rw [hfold] at hmap; cases hmap
      | some c =>
        rw [hfold] at hmap
        simp only [Option.some.injEq, Prod.mk.injEq] at hmap
        have hw : w = c.word := hmap.1
        have hs₁ := hmap.2
        have hcw : c.word ∈ (evaluatedScores compute rlog2 rln s history).map
            (fun p => p.1) := foldBest_word_mem hfold
        simp only [evaluatedScores, hlast, List.map_map] at hcw
        rw [List.mem_map] at hcw
        obtain ⟨e, he, hew⟩ := hcw
        have he₁ : e ∈ s.remaining.filter (fun e =>
            decide (Correctness.pack last.mask
              = patternOf compute last.word e)) :=
          List.mem_of_mem_take he
        have he₂ : e ∈ s.remaining := List.mem_of_mem_filter he₁
        have hew₁ : e.word = w := by
          rw [hw]
          simpa using hew
        constructor
        · rw [hs₁]
          exact hew₁ ▸ List.mem_map_of_mem _ he₁
        · exact hew₁ ▸ List.mem_map_of_mem _ he₂

/-- C6: when `guess` returns a word on a non-empty history, that word is
the earliest-evaluated candidate whose `e_score` is strictly below every
earlier evaluated score and at most every later evaluated score (strict
improvement only, so ties keep the earlier candidate). -/
theorem C6_earliest_strict_minimum {compute : String → String → Mask}
    {wordAt : Nat → String} {rlog2 rln : ℚ → ℚ} {cache : Cache} {s : Cached}
    {history : List Guess} {w : String} (hv : ValidCache compute wordAt cache)
    (hgood : GoodEntries wordAt s.remaining) (hne : history ≠ [])
    (hres : (Cached.guess compute rlog2 rln cache s history).map
      (fun r => r.1) = some w) :
    ∃ i, ∃ hi : i < (evaluatedScores compute rlog2 rln s history).length,
      ((evaluatedScores compute rlog2 rln s history).get ⟨i, hi⟩).1 = w
      ∧ (∀ j, ∀ hj : j < (evaluatedScores compute rlog2 rln s history).length,
          j < i → ((evaluatedScores compute rlog2 rln s history).get ⟨i, hi⟩).2
            < ((evaluatedScores compute rlog2 rln s history).get ⟨j, hj⟩).2)
      ∧ (∀ j, ∀ hj : j < (evaluatedScores compute rlog2 rln s history).length,
          i < j → ((evaluatedScores compute rlog2 rln s history).get ⟨i, hi⟩).2
            ≤ ((evaluatedScores compute rlog2 rln s history).get ⟨j, hj⟩).2) := by
  have hmap := @guess_eq_pure compute wordAt rlog2 rln cache s history hv hgood
  have hpure : (guessPure compute rlog2 rln s history).map (fun p => p.1)
      = some w := by
    rw [← hmap]
    cases hg : Cached.guess compute rlog2 rln cache s history with
    | none => rw [hg] at hres; simp at hres
    | some r => rw [hg] at hres; simpa using hres
  have hlast : ∃ last, history.getLast? = some last := by
    cases hl : history.getLast? with
    | none => exact absurd (List.getLast?_eq_none_iff.mp hl) hne
    | some last => exact ⟨last, rfl⟩
  obtain ⟨last, hlast⟩ := hlast
  cases hfind : s.remaining.find? (fun e => last.word == e.word) with
  | none => simp [guessPure, hlast, hfind] at hpure
  | some found =>
    simp only [guessPure, hlast, hfind] at hpure
    cases hfold : foldBest (evaluatedScores compute rlog2 rln s history) with
    | none => rw [hfold] at hpure; simp at hpure
    | some c =>
      rw [hfold] at hpure
      simp only [Option.map_some', Option.some.injEq] at hpure
      have hnil : evaluatedScores compute rlog2 rln s history ≠ [] := by
        intro hn
        rw [hn] at hfold
        simp [foldBest] at hfold
      obtain ⟨d, i, hi, hfold₁, hw, hs, hbefore, hafter⟩ :=
        foldBest_firstMin (evaluatedScores compute rlog2 rln s history) hnil
      rw [hfold] at hfold₁
      injection hfold₁ with hdc
      refine ⟨i, hi, ?_, ?_, ?_⟩
      · rw [← hw, ← hdc, hpure]
      · intro j hj hji
        rw [← hs]
        exact hbefore j hj hji
      · intro j hj hij
        rw [← hs]
        exact hafter j hj hij

/-- C9: `guess` is deterministic in the cache: two valid cache states
(empty, partially or fully populated) produce the same word and the same
successor guesser state on the same history. -/
theorem C9_cache_independent_determinism {compute : String → String → Mask}
    {wordAt : Nat → String} {rlog2 rln : ℚ → ℚ} {cache₁ cache₂ : Cache}
    {s : Cached} {history : List Guess}
    (hv₁ : ValidCache compute wordAt cache₁)
    (hv₂ : ValidCache compute wordAt cache₂)
    (hgood : GoodEntries wordAt s.remaining) :
    (Cached.guess compute rlog2 rln cache₁ s history).map
        (fun r => (r.1, r.2.1))
      = (Cached.guess compute rlog2 rln cache₂ s history).map
        (fun r => (r.1, r.2.1)) := by
  rw [@guess_eq_pure compute wordAt rlog2 rln cache₁ s history hv₁ hgood,
    @guess_eq_pure compute wordAt rlog2 rln cache₂ s history hv₂ hgood]

/-- C7: a cache cell starts uncomputed; the first lookup computes
`pack (compute answer guess)`, stores its successor encoding and returns
it; the written cell is never overwritten, and every later lookup of the
same pair returns the identical value without invoking the feedback
primitive (the result is the same under any other primitive
`compute₂`). -/
theorem C7_cache_cell_memoization (compute compute₂ : String → String → Mask)
    (cache : Cache) (gi ai : Nat) (g a : String) (h : cache gi ai = none) :
    Cache.mkDefault gi ai = none
    ∧ ∃ cache₁,
      get_correctness_packed compute cache gi g a ai
        = some (Correctness.pack (compute a g), cache₁)
      ∧ cache₁ gi ai = some (Correctness.pack (compute a g) + 1)
      ∧ get_correctness_packed compute cache₁ gi g a ai
        = some (Correctness.pack (compute a g), cache₁)
      ∧ get_correctness_packed compute₂ cache₁ gi g a ai
        = some (Correctness.pack (compute a g), cache₁) := by
  refine ⟨rfl, fun g₁ a₁ =>
      if g₁ = gi ∧ a₁ = ai then some (Correctness.pack (compute a g) + 1)
      else cache g₁ a₁, ?_, ?_, ?_, ?_⟩
  · simp [get_correctness_packed, h, CacheValue.new_pack]
  · simp
  · simp [get_correctness_packed, CacheValue.get_succ]
  · simp [get_correctness_packed, CacheValue.get_succ]

/-- C10: `CacheValue`'s add-one `NonZeroU8` encoding round-trips on every
byte except 255, where (and only where) its internal unwrap would panic;
through `get_correctness_packed` every stored value is a packed pattern
below `MAX_MASK_ENUM = 243`, so the panic branch is unreachable and the
lookup always succeeds. -/
theorem C10_cachevalue_roundtrip (v : Nat) (hv : v < 256) :
    (v ≤ 254 → (CacheValue.new v).map CacheValue.get = some v)
    ∧ (CacheValue.new v = none ↔ v = 255)
    ∧ (∀ (compute : String → String → Mask) (cache : Cache) (gi : Nat)
        (g a : String) (ai : Nat),
        (get_correctness_packed compute cache gi g a ai).isSome = true) := by
  refine ⟨?_, ?_, ?_⟩
  · intro h
    rw [CacheValue.new_of_le h]
    simp [CacheValue.get_succ]
  · constructor
    · intro h
      simp only [CacheValue.new] at h
      by_cases hz : (v + 1) % 256 = 0
      · omega
      · simp [hz] at h
    · intro h
      subst h
      rfl
  · intro compute cache gi g a ai
    cases hc : cache gi ai with
    | some x => simp [get_correctness_packed, hc]
    | none => simp [get_correctness_packed, hc, CacheValue.new_pack]

/-! ### Concrete evaluations used by the witnesses -/

theorem cFind_tares : cRem.find? (fun e =>
    (Guess.mk "tares" maskWrong).word == e.word) = some ⟨"tares", 1, 0⟩ := by
  simp [cRem]

theorem cGuess_word :
    (Cached.guess cCompute zfun zfun Cache.mkDefault cState cHist).map
      (fun r => r.1) = some "raise" := by
  have hmap := @guess_eq_pure cCompute cWordAt zfun zfun Cache.mkDefault cState
    cHist (validCache_mkDefault cCompute cWordAt) goodEntries_cRem
  have hcomp : (Cached.guess cCompute zfun zfun Cache.mkDefault cState
      cHist).map (fun r => r.1)
      = (guessPure cCompute zfun zfun cState cHist).map (fun p => p.1) := by
    rw [← hmap, Option.map_map]
    rfl
  rw [hcomp]
  simp [guessPure, evaluatedScores, cState, cRem, cHist, patternOf, cCompute,
    maskWrong, maskCorrect, Correctness.pack, Correctness.toNat, foldBest,
    updateBest]

/-! ### Witnesses -/

/-- C1 witness at the concrete two-word instance. -/
theorem C1_filter_pattern_consistency_witness :
    ValidCache cCompute cWordAt Cache.mkDefault
    ∧ GoodEntries cWordAt cRem
    ∧ cRem.find? (fun e => (Guess.mk "tares" maskWrong).word == e.word)
        = some ⟨"tares", 1, 0⟩
    ∧ ∃ cache₁, filterStep cCompute "tares" 0 (Correctness.pack maskWrong)
        Cache.mkDefault cRem =
      some (cRem.filter (fun e => decide (Correctness.pack maskWrong
          = patternOf cCompute "tares" e)), cache₁)
      ∧ ∀ e ∈ cRem.filter (fun e => decide (Correctness.pack maskWrong
          = patternOf cCompute "tares" e)),
          Correctness.pack (cCompute e.word "tares")
            = Correctness.pack maskWrong :=
  ⟨validCache_mkDefault cCompute cWordAt, goodEntries_cRem, cFind_tares,
    @C1_filter_pattern_consistency cCompute cWordAt Cache.mkDefault cRem
      ⟨"tares", maskWrong⟩ ⟨"tares", 1, 0⟩
      (validCache_mkDefault cCompute cWordAt) goodEntries_cRem cFind_tares⟩

/-- C2 witness of the amended claim at the concrete two-word instance. -/
theorem C2_buckets_cover_full_remaining_witness :
    ValidCache cCompute cWordAt Cache.mkDefault
    ∧ cWordAt 0 = "tares"
    ∧ GoodEntries cWordAt cRem
    ∧ ∃ totals cache₁,
        computeTotals cCompute 0 "tares" Cache.mkDefault (fun _ => 0) cRem
          = some (totals, cache₁)
        ∧ ∀ k, totals k = bucketSum cCompute "tares" cRem k :=
  ⟨validCache_mkDefault cCompute cWordAt, rfl, goodEntries_cRem,
    @C2_buckets_cover_full_remaining cCompute cWordAt Cache.mkDefault cRem
      ⟨"tares", 1, 0⟩ (validCache_mkDefault cCompute cWordAt) rfl
      goodEntries_cRem⟩

/-- C3 witness at the concrete two-word instance. -/
theorem C3_failure_characterization_witness :
    ValidCache cCompute cWordAt Cache.mkDefault
    ∧ GoodEntries cWordAt cState.remaining
    ∧ ((Cached.guess cCompute zfun zfun Cache.mkDefault cState cHist = none ↔
        ∃ last, cHist.getLast? = some last ∧
          ((∀ e ∈ cState.remaining, e.word ≠ last.word)
            ∨ cState.remaining.filter (fun e =>
                decide (Correctness.pack last.mask
                  = patternOf cCompute last.word e)) = []))
      ∧ ∀ w s₁ cache₂,
          Cached.guess cCompute zfun zfun Cache.mkDefault cState cHist
            = some (w, s₁, cache₂) →
          cHist ≠ [] →
          w ∈ s₁.remaining.map (fun e => e.word)
          ∧ w ∈ cState.remaining.map (fun e => e.word)) :=
  ⟨validCache_mkDefault cCompute cWordAt, goodEntries_cRem,
    @C3_failure_characterization cCompute cWordAt zfun zfun Cache.mkDefault
      cState cHist (validCache_mkDefault cCompute cWordAt) goodEntries_cRem⟩

/-- C4 witness at the concrete two-word instance. -/
theorem C4_search_budget_witness :
    ValidCache cCompute cWordAt Cache.mkDefault
    ∧ GoodEntries cWordAt cRem
    ∧ ∃ best cache₁,
        scoreLoop cCompute zfun zfun cRem 0 0 0 (max (cRem.length / 3) 20)
          Cache.mkDefault none 0 cRem =
        some (best, cache₁, min cRem.length (max (cRem.length / 3) 20))
        ∧ (cRem.length = 60 → min cRem.length (max (cRem.length / 3) 20) = 20)
        ∧ (cRem.length = 100 →
            min cRem.length (max (cRem.length / 3) 20) = 33) :=
  ⟨validCache_mkDefault cCompute cWordAt, goodEntries_cRem,
    @C4_search_budget cCompute cWordAt zfun zfun 0 0 0 cRem Cache.mkDefault
      (validCache_mkDefault cCompute cWordAt) goodEntries_cRem⟩

/-- C6 witness at the concrete two-word instance: the returned word
"raise" is the earliest strict minimum of the evaluated scores. -/
theorem C6_earliest_strict_minimum_witness :
    ValidCache cCompute cWordAt Cache.mkDefault
    ∧ GoodEntries cWordAt cState.remaining
    ∧ cHist ≠ []
    ∧ (Cached.guess cCompute zfun zfun Cache.mkDefault cState cHist).map
        (fun r => r.1) = some "raise"
    ∧ ∃ i, ∃ hi : i < (evaluatedScores cCompute zfun zfun cState cHist).length,
        ((evaluatedScores cCompute zfun zfun cState cHist).get ⟨i, hi⟩).1
          = "raise"
        ∧ (∀ j, ∀ hj : j <
              (evaluatedScores cCompute zfun zfun cState cHist).length,
            j < i →
            ((evaluatedScores cCompute zfun zfun cState cHist).get ⟨i, hi⟩).2
              < ((evaluatedScores cCompute zfun zfun cState cHist).get
                  ⟨j, hj⟩).2)
        ∧ (∀ j, ∀ hj : j <
              (evaluatedScores cCompute zfun zfun cState cHist).length,
            i < j →
            ((evaluatedScores cCompute zfun zfun cState cHist).get ⟨i, hi⟩).2
              ≤ ((evaluatedScores cCompute zfun zfun cState cHist).get
                  ⟨j, hj⟩).2) :=
  ⟨validCache_mkDefault cCompute cWordAt, goodEntries_cRem, by simp [cHist],
    cGuess_word,
    @C6_earliest_strict_minimum cCompute cWordAt zfun zfun Cache.mkDefault
      cState cHist "raise" (validCache_mkDefault cCompute cWordAt)
      goodEntries_cRem (by simp [cHist]) cGuess_word⟩

/-- C7 witness at a concrete fresh cell. -/
theorem C7_cache_cell_memoization_witness :
    Cache.mkDefault 0 1 = none
    ∧ (Cache.mkDefault 0 1 = none
      ∧ ∃ cache₁,
        get_correctness_packed cCompute Cache.mkDefault 0 "tares" "raise" 1
          = some (Correctness.pack (cCompute "raise" "tares"), cache₁)
        ∧ cache₁ 0 1 = some (Correctness.pack (cCompute "raise" "tares") + 1)
        ∧ get_correctness_packed cCompute cache₁ 0 "tares" "raise" 1
          = some (Correctness.pack (cCompute "raise" "tares"), cache₁)
        ∧ get_correctness_packed (fun _ _ => maskCorrect) cache₁ 0 "tares"
            "raise" 1
          = some (Correctness.pack (cCompute "raise" "tares"), cache₁)) :=
  ⟨rfl, C7_cache_cell_memoization cCompute (fun _ _ => maskCorrect)
    Cache.mkDefault 0 1 "tares" "raise" rfl⟩

/-- C8 witness at the concrete two-word instance. -/
theorem C8_monotonic_narrowing_witness :
    ValidCache cCompute cWordAt Cache.mkDefault
    ∧ GoodEntries cWordAt cState.remaining
    ∧ cState.remaining.find? (fun e =>
        (Guess.mk "tares" maskWrong).word == e.word) = some ⟨"tares", 1, 0⟩
    ∧ ((∃ rem₁ cache₁, filterStep cCompute "tares" 0
          (Correctness.pack maskWrong) Cache.mkDefault cState.remaining
          = some (rem₁, cache₁)
        ∧ rem₁.length ≤ cState.remaining.length
        ∧ (rem₁.length = cState.remaining.length ↔
            ∀ e ∈ cState.remaining,
              Correctness.pack (cCompute e.word "tares")
                = Correctness.pack maskWrong))
      ∧ ∀ (history : List Guess) (w : String) (s₁ : Cached) (cache₂ : Cache),
          Cached.guess cCompute zfun zfun Cache.mkDefault cState history
            = some (w, s₁, cache₂) →
          s₁.remaining.length ≤ cState.remaining.length) :=
  ⟨validCache_mkDefault cCompute cWordAt, goodEntries_cRem, cFind_tares,
    @C8_monotonic_narrowing cCompute cWordAt zfun zfun Cache.mkDefault cState
      ⟨"tares", maskWrong⟩ ⟨"tares", 1, 0⟩
      (validCache_mkDefault cCompute cWordAt) goodEntries_cRem cFind_tares⟩

/-- C9 witness: the empty cache and the fully populated cache give the
same result on the concrete instance. -/
theorem C9_cache_independent_determinism_witness :
    ValidCache cCompute cWordAt Cache.mkDefault
    ∧ ValidCache cCompute cWordAt cCacheFull
    ∧ GoodEntries cWordAt cState.remaining
    ∧ (Cached.guess cCompute zfun zfun Cache.mkDefault cState cHist).map
        (fun r => (r.1, r.2.1))
      = (Cached.guess cCompute zfun zfun cCacheFull cState cHist).map
        (fun r => (r.1, r.2.1)) :=
  ⟨validCache_mkDefault cCompute cWordAt, validCache_cCacheFull,
    goodEntries_cRem,
    @C9_cache_independent_determinism cCompute cWordAt zfun zfun
      Cache.mkDefault cCacheFull cState cHist
      (validCache_mkDefault cCompute cWordAt) validCache_cCacheFull
      goodEntries_cRem⟩

/-- C10 witness at the byte value 7. -/
theorem C10_cachevalue_roundtrip_witness :
    (7 : Nat) < 256
    ∧ ((7 ≤ 254 → (CacheValue.new 7).map CacheValue.get = some 7)
      ∧ (CacheValue.new 7 = none ↔ (7 : Nat) = 255)
      ∧ (∀ (compute : String → String → Mask) (cache : Cache) (gi : Nat)
          (g a : String) (ai : Nat),
          (get_correctness_packed compute cache gi g a ai).isSome = true)) :=
  ⟨by decide, C10_cachevalue_roundtrip 7 (by decide)⟩

end Roget
